import Mathlib

/-!
# Verification of the srgn core against its specification

Shallow embedding of the excerpted srgn source:

* `src/actions/replace/variables.rs` — the template-variable extraction state
  machine (`inject_variables`), embedded character by character with the exact
  match-arm order of the source.
* `src/actions/replace/mod.rs` — the `Replacement` action (`act`,
  `act_with_context`).
* `src/actions/mod.rs` — the `Action` trait with its defaulted
  context-aware operation.
* `src/scoping/langs/mod.rs` — `negate` and `LanguageScoper::scope_via_query`
  with the ignore-capture negation convention.

Strings are embedded as `List Char`; the source iterates
`input.chars().enumerate()`, so the loop index `i` below is the *character*
index of the current character, while `input.len()` (used when flushing a
pending variable at end of input) is the *byte* length, embedded as the sum of
UTF-8 sizes.  Machine integers (`usize`) are embedded as `Nat`; the
subtractions `i - '$'.len_utf8()` and `i - ('$'.len_utf8() + '{'.len_utf8() * n)`
never underflow on reachable states (a `$` and `n` braces precede position
`i`), so truncated `Nat` subtraction agrees with `usize` subtraction there.
-/

namespace Srgn

/-- `CaptureGroup` from `src/scoping/regex` (declaration only in the excerpt):
a named or numbered capture-group identity.  Names are `List Char` because the
source builds them by pushing characters onto a `String`. -/
inductive CaptureGroup where
  | named (name : List Char)
  | numbered (magnitude : Nat)
deriving DecidableEq

/-- `State` of `inject_variables` in `src/actions/replace/variables.rs`. -/
inductive MState where
  | noop
  | maybeVariableStart
  | windUpBraces (n : Nat)
  | buildingNamed (name : List Char) (start : Nat) (nBraces : Nat)
  | buildingNumbered (magnitude : Nat) (start : Nat) (nBraces : Nat)
  | windDownNamed (name : List Char) (start : Nat) (nBraces : Nat)
  | windDownNumbered (magnitude : Nat) (start : Nat) (nBraces : Nat)
deriving DecidableEq

/-- The Rust pattern `'a'..='z' | 'A'..='Z' | '_'`. -/
def isWordStart (c : Char) : Bool :=
  ('a' ≤ c && c ≤ 'z') || ('A' ≤ c && c ≤ 'Z') || c == '_'

/-- The Rust pattern `'0'..='9'`. -/
def isDigitChar (c : Char) : Bool :=
  '0' ≤ c && c ≤ '9'

/-- The Rust pattern `'a'..='z' | 'A'..='Z' | '_' | '0'..='9'` (continuation
characters of a named variable). -/
def isWordCont (c : Char) : Bool :=
  isWordStart c || isDigitChar c

/-- `c.to_digit(10)`: numeric value of a decimal digit character. -/
def digitVal (c : Char) : Nat :=
  c.toNat - '0'.toNat

/-- One variable occurrence recorded into `VariablePositions`: the capture
group together with the half-open range `start..end` pushed for it.  The
`HashMap<CaptureGroup, Vec<Range<usize>>>` of the source is recovered from the
chronological emission list by filtering on the group (per-group order of the
`Vec` equals emission order, since the source only ever appends). -/
abbrev Emission := CaptureGroup × Nat × Nat

/-- One iteration of the `for (i, c) in input.chars().enumerate()` loop of
`inject_variables`, with the source's match arms in their original order
(the match is order-dependent; in particular `(Noop | WindUpBraces(_), '$')`
precedes the catch-all `(MaybeVariableStart | WindUpBraces(_), _)` arm).
Returns the next state and the emission pushed into the variables map, or
`Except.error ()` where the source does
`return Err(VariableExpressionError::MismatchedBraces(..))`. -/
def step : MState → Char → Nat → Except Unit (MState × Option Emission)
  | .noop, c, _ =>
    if c == '$' then .ok (.maybeVariableStart, none)
    else .ok (.noop, none)
  | .windUpBraces n, c, i =>
    if c == '$' then .ok (.maybeVariableStart, none)
    else if c == '{' then .ok (.windUpBraces (n + 1), none)
    else if isWordStart c then .ok (.buildingNamed [c] (i - (1 + n)) n, none)
    else if isDigitChar c then .ok (.buildingNumbered (digitVal c) (i - (1 + n)) n, none)
    else .ok (.noop, none)
  | .maybeVariableStart, c, i =>
    if c == '{' then .ok (.windUpBraces 1, none)
    else if isWordStart c then .ok (.buildingNamed [c] (i - 1) 0, none)
    else if isDigitChar c then .ok (.buildingNumbered (digitVal c) (i - 1) 0, none)
    else .ok (.noop, none)
  | .buildingNamed name start n, c, i =>
    if isWordCont c then .ok (.buildingNamed (name ++ [c]) start n, none)
    else if n == 0 then
      .ok (if c == '$' then .maybeVariableStart else .noop, some (.named name, start, i))
    else if c == '}' then .ok (.windDownNamed name start (n - 1), none)
    else .error ()
  | .windDownNamed name start n, c, i =>
    if n == 0 then
      .ok (if c == '$' then .maybeVariableStart else .noop, some (.named name, start, i))
    else if c == '}' then .ok (.windDownNamed name start (n - 1), none)
    else .error ()
  | .buildingNumbered magnitude start n, c, i =>
    if isDigitChar c then
      .ok (.buildingNumbered (magnitude * 10 + digitVal c) start n, none)
    else if n == 0 then
      .ok (if c == '$' then .maybeVariableStart else .noop, some (.numbered magnitude, start, i))
    else if c == '}' then .ok (.windDownNumbered magnitude start (n - 1), none)
    else .error ()
  | .windDownNumbered magnitude start n, c, i =>
    if n == 0 then
      .ok (if c == '$' then .maybeVariableStart else .noop, some (.numbered magnitude, start, i))
    else if c == '}' then .ok (.windDownNumbered magnitude start (n - 1), none)
    else .error ()

/-- Run the loop of `inject_variables` from state `s` with the enumeration
counter at `i`, collecting emissions in order. -/
def runFrom (s : MState) (i : Nat) : List Char → Except Unit (MState × List Emission)
  | [] => .ok (s, [])
  | c :: cs =>
    match step s c i with
    | .error e => .error e
    | .ok (s', em) =>
      match runFrom s' (i + 1) cs with
      | .error e => .error e
      | .ok (sf, ems) => .ok (sf, em.toList ++ ems)

/-- `input.len()` of the source: the UTF-8 byte length of the template. -/
def byteLen (cs : List Char) : Nat :=
  (cs.map Char.utf8Size).sum

/-- The `// Flush out any pending state` block of `inject_variables`: a
variable in progress at brace depth `0` is finalized with its range running to
`input.len()`; one at depth `> 0` is a `MismatchedBraces` error; any other
state flushes nothing. -/
def flush : MState → Nat → Except Unit (Option Emission)
  | .buildingNamed name start 0, len => .ok (some (.named name, start, len))
  | .windDownNamed name start 0, len => .ok (some (.named name, start, len))
  | .buildingNumbered magnitude start 0, len => .ok (some (.numbered magnitude, start, len))
  | .windDownNumbered magnitude start 0, len => .ok (some (.numbered magnitude, start, len))
  | .buildingNamed _ _ (_ + 1), _ => .error ()
  | .windDownNamed _ _ (_ + 1), _ => .error ()
  | .buildingNumbered _ _ (_ + 1), _ => .error ()
  | .windDownNumbered _ _ (_ + 1), _ => .error ()
  | _, _ => .ok none

/-- `VariableExpressionError` of `src/actions/replace/variables.rs`. -/
inductive VariableExpressionError where
  | mismatchedBraces (tmpl : List Char)
deriving DecidableEq

/-- `inject_variables`: extract the variable positions of a template, in
emission order, or fail with `MismatchedBraces` carrying the template. -/
def injectVariables (input : List Char) : Except VariableExpressionError (List Emission) :=
  match runFrom .noop 0 input with
  | .error _ => .error (.mismatchedBraces input)
  | .ok (s, ems) =>
    match flush s (byteLen input) with
    | .error _ => .error (.mismatchedBraces input)
    | .ok none => .ok ems
    | .ok (some e) => .ok (ems ++ [e])

/-- Brace depth of a variable currently in progress (the `n_braces` field of
the four building / winding-down states; `0` for the other states). -/
def braceDepth : MState → Nat
  | .buildingNamed _ _ n => n
  | .buildingNumbered _ _ n => n
  | .windDownNamed _ _ n => n
  | .windDownNumbered _ _ n => n
  | _ => 0

/-- Whether a variable is in progress (building or winding down). -/
def inProgress : MState → Bool
  | .buildingNamed _ _ _ => true
  | .buildingNumbered _ _ _ => true
  | .windDownNamed _ _ _ => true
  | .windDownNumbered _ _ _ => true
  | _ => false

/-- Whether character `c` extends the variable in progress in state `s`
(identifier characters for a named variable, digits for a numbered one; the
winding-down states accept no continuation characters). -/
def continuesVar : MState → Char → Bool
  | .buildingNamed _ _ _, c => isWordCont c
  | .buildingNumbered _ _ _, c => isDigitChar c
  | _, _ => false

/-- `Replacement` of `src/actions/replace/mod.rs`: the escape-processed
template (`repl`) and its parsed variable positions, kept as the chronological
emission list (see `Emission`); the source field is named `variables`. -/
structure Replacement where
  repl : List Char
  varPositions : List Emission

/-- `Replacement::act`: ignores the input entirely and returns a clone of the
stored template. -/
def Replacement.act (r : Replacement) (input : List Char) : List Char :=
  let _ := input
  r.repl

/-- Modelled from the spec: `crate::scoping::scope::ScopeContext` is only
named, not defined, in the excerpt.  Per §4.5/§4.4 it carries one match's
capture bindings, a map from capture group to captured text (the
`ScopeContext::CaptureGroups` variant matched in
`Replacement::act_with_context`). -/
inductive ScopeContext where
  | captureGroups (cgs : List (CaptureGroup × List Char))

/-- Association-list lookup of a capture group's bound text. -/
def lookupGroup (cgs : List (CaptureGroup × List Char)) (g : CaptureGroup) :
    Option (List Char) :=
  match cgs with
  | [] => none
  | (g', t) :: rest => if g' = g then some t else lookupGroup rest g

/-- Modelled from the spec: the typed per-fragment error of §7 for a templated
substitution referencing a capture group absent from the fragment's bindings
(`Replacement::act_with_context` is `todo!()` past its logging prelude in the
excerpted `src/actions/replace/mod.rs`). -/
inductive ReplacementError where
  | missingCaptureGroup (g : CaptureGroup)
deriving DecidableEq

/-- First group referenced by the template's variable positions that is not
bound in the given bindings, if any. -/
def firstMissing (vars : List Emission) (cgs : List (CaptureGroup × List Char)) :
    Option CaptureGroup :=
  vars.findSome? fun e => if (lookupGroup cgs e.1).isNone then some e.1 else none

/-- Modelled from the spec: the substitution walk of §4.4 — copy the template
left to right, and at an index where a recorded variable range starts, emit
the bound text instead and skip the template up to the range's end. -/
def substGo (cgs : List (CaptureGroup × List Char)) (vars : List Emission) :
    List Char → Nat → Nat → List Char
  | [], _, _ => []
  | c :: rest, i, skipUntil =>
    if i < skipUntil then substGo cgs vars rest (i + 1) skipUntil
    else
      match vars.findSome? (fun e => if e.2.1 = i then some (e.1, e.2.2) else none) with
      | some (g, stop) => ((lookupGroup cgs g).getD []) ++ substGo cgs vars rest (i + 1) stop
      | none => c :: substGo cgs vars rest (i + 1) skipUntil

/-- Modelled from the spec: `Replacement::act_with_context`, whose body past
the logging prelude is `todo!()` in the excerpt.  Per §4.4/§7: for every
`(group, ranges)` entry of the template's `VariablePositions` the bound text
for `group` must exist in the fragment's bindings — if one is absent the
result is the typed missing-capture-group error naming it, never an output
string; otherwise the template is emitted with every recorded variable range
replaced by the bound text. -/
def Replacement.actWithContext (r : Replacement) (input : List Char)
    (context : ScopeContext) : Except ReplacementError (List Char) :=
  let _ := input
  match context with
  | .captureGroups cgs =>
    match firstMissing r.varPositions cgs with
    | some g => .error (.missingCaptureGroup g)
    | none => .ok (substGo cgs r.varPositions r.repl 0 0)

/-- The `Action` trait of `src/actions/mod.rs`, as a record of its two
operations.  The default value of `actWithContext` embeds the trait's default
method body: `let _ = context; self.act(input)` — an implementor that does not
override the context-aware operation gets exactly this function. -/
structure ActionImpl where
  act : List Char → List Char
  actWithContext : List Char → ScopeContext → List Char := fun input _ => act input

/-- Modelled from the spec: `merge` of the range algebra (§4.1) — the
`crate::ranges::Ranges` module is not part of the excerpt.  Sweep step:
coalesce the next interval into the current one when `next.start ≤
current.end`, else emit the current interval. -/
def mergeSweep : Nat × Nat → List (Nat × Nat) → List (Nat × Nat)
  | cur, [] => [cur]
  | cur, x :: xs =>
    if x.1 ≤ cur.2 then mergeSweep (cur.1, max cur.2 x.2) xs
    else cur :: mergeSweep x xs

/-- Modelled from the spec: `merge(set)` of §4.1 — sort by start, then sweep
left to right coalescing intervals that overlap or touch. -/
def merge (rs : List (Nat × Nat)) : List (Nat × Nat) :=
  match rs.insertionSort (fun a b => a.1 ≤ b.1) with
  | [] => []
  | x :: xs => mergeSweep x xs

/-- Modelled from the spec: remove one (non-empty) subtrahend interval `b`
from one minuend interval `x`, emitting the at most two non-empty remaining
pieces; an empty `b` removes nothing. -/
def cut (b : Nat × Nat) (x : Nat × Nat) : List (Nat × Nat) :=
  if b.2 ≤ b.1 then [x]
  else
    (if x.1 < min x.2 b.1 then [(x.1, min x.2 b.1)] else []) ++
      (if max x.1 b.2 < x.2 then [(max x.1 b.2, x.2)] else [])

/-- Modelled from the spec: `subtract(a, b)` of §4.1 — emit the portions of
each `a`-interval not covered by any `b`-interval. -/
def subtract (a b : List (Nat × Nat)) : List (Nat × Nat) :=
  b.foldl (fun acc bi => acc.flatMap (cut bi)) a

/-- Modelled from the spec: a compiled tree-sitter query (§6 treats the
grammar provider as an opaque collaborator).  A query is its list of captures;
each capture couples its name (a `List Char`, like every string of this
embedding) with the opaque function taking an input text to the byte ranges of
the nodes that capture matches on it.  `disable_capture` removes a capture;
disabled captures contribute no ranges. -/
structure TSQuery where
  captures : List (List Char × (List Char → List (Nat × Nat)))

/-- `query.capture_names()`. -/
def captureNames (q : TSQuery) : List (List Char) :=
  q.captures.map (·.1)

/-- `query.disable_capture(name)`. -/
def disableCapture (q : TSQuery) (name : List Char) : TSQuery :=
  ⟨q.captures.filter fun cap => cap.1 != name⟩

/-- `IGNORE` of `src/scoping/langs/mod.rs`: the reserved capture-name tag. -/
def IGNORE : List Char := "_SRGN_IGNORE".data

/-- `name.starts_with(tag)`: the tag is an initial segment of the name. -/
def startsWithTag : List Char → List Char → Bool
  | [], _ => true
  | _ :: _, [] => false
  | t :: ts, c :: cs => t == c && startsWithTag ts cs

/-- The `is_ignored` closure of `negate`: the capture name starts with the
reserved ignore tag. -/
def isIgnored (name : List Char) : Bool :=
  startsWithTag IGNORE name

/-- The `has_ignored_captures` check of `negate`. -/
def hasIgnoredCaptures (q : TSQuery) : Bool :=
  (captureNames q).any fun name => isIgnored name

/-- `negate` of `src/scoping/langs/mod.rs`: when the query has at least one
ignored capture, produce the same query with every acknowledged (non-ignored)
capture disabled; otherwise no negative query. -/
def negate (q : TSQuery) : Option TSQuery :=
  if hasIgnoredCaptures q then
    let acknowledged := (captureNames q).filter fun name => !isIgnored name
    some (acknowledged.foldl (fun acc name => disableCapture acc name) q)
  else none

/-- `Frobulator` of `src/scoping/langs/mod.rs` (also the shape of each
language scoper struct such as `Rust { q, nq }`): the positive query plus the
optional negative query. -/
structure Frobulator where
  posQuery : TSQuery
  negQuery : Option TSQuery

/-- Construction as in `Rust::new`: keep the query and derive the negative
query via `negate`. -/
def newScoper (q : TSQuery) : Frobulator :=
  ⟨q, negate q⟩

/-- The `run` closure of `LanguageScoper::scope_via_query`: collect the byte
ranges of all captures of all query matches, then `ranges.merge()`. -/
def runQuery (q : TSQuery) (input : List Char) : List (Nat × Nat) :=
  merge (q.captures.flatMap fun cap => cap.2 input)

/-- `LanguageScoper::scope_via_query`: run the positive query and, when a
negative query exists, subtract its run's ranges. -/
def scopeViaQuery (f : Frobulator) (input : List Char) : List (Nat × Nat) :=
  match f.negQuery with
  | some nq => subtract (runQuery f.posQuery input) (runQuery nq input)
  | none => runQuery f.posQuery input

end Srgn

section SanityChecks
open Srgn

example : injectVariables "$var".data = .ok [(.named "var".data, 0, 4)] := by rfl
example : injectVariables " $var".data = .ok [(.named "var".data, 1, 5)] := by rfl
example : injectVariables "$var ".data = .ok [(.named "var".data, 0, 4)] := by rfl
example : injectVariables "$var_1337_wow".data = .ok [(.named "var_1337_wow".data, 0, 13)] := by rfl
example : injectVariables "$1var".data = .ok [(.numbered 1, 0, 2)] := by rfl
example : injectVariables "$\x7b0\x7d".data = .ok [(.numbered 0, 0, 4)] := by rfl
example : injectVariables "$\x7bvar\x7d".data = .ok [(.named "var".data, 0, 6)] := by rfl
example : injectVariables "$\x7b\x7bvar\x7d\x7d".data = .ok [(.named "var".data, 0, 8)] := by rfl
example : injectVariables "$\x7bvar\x7d\x7d".data = .ok [(.named "var".data, 0, 6)] := by rfl
example : injectVariables "$\x7b\x7bvar\x7d".data = .error (.mismatchedBraces "$\x7b\x7bvar\x7d".data) := by rfl
example : injectVariables "$\x7bvar".data = .error (.mismatchedBraces "$\x7bvar".data) := by rfl
example : injectVariables "$var\x7d".data = .ok [(.named "var".data, 0, 4)] := by rfl
example : injectVariables "Mixed $\x7b\x7bvar\x7d\x7dcontent".data = .ok [(.named "var".data, 6, 14)] := by rfl
example : injectVariables "$9999".data = .ok [(.numbered 9999, 0, 5)] := by rfl
example : injectVariables "$-1".data = .ok [] := by rfl
example : injectVariables "$var $0 $var".data
    = .ok [(.named "var".data, 0, 4), (.numbered 0, 5, 7), (.named "var".data, 8, 12)] := by rfl
example : injectVariables "$$".data = .ok [] := by rfl
example : injectVariables "$$$\x7bavar\x7d$$".data = .ok [(.named "avar".data, 2, 9)] := by rfl

end SanityChecks

namespace Srgn

/-- If some list element is mapped to `some` by `f`, then `findSome?` yields a
result. -/
theorem findSome?_isSome_of_mem {α β : Type} {l : List α} {f : α → Option β}
    {a : α} {b : β} (ha : a ∈ l) (hfa : f a = some b) :
    ∃ b', l.findSome? f = some b' := by
  induction l with
  | nil => cases ha
  | cons x xs ih =>
    cases hfx : f x with
    | some y => exact ⟨y, by simp [List.findSome?_cons, hfx]⟩
    | none =>
      rcases List.mem_cons.mp ha with rfl | ha'
      · exact absurd hfa (by simp [hfx])
      · obtain ⟨b', hb'⟩ := ih ha'
        exact ⟨b', by simp [List.findSome?_cons, hfx, hb']⟩

/-- A group reported by `firstMissing` really is referenced and unbound. -/
theorem firstMissing_spec {vars : List Emission}
    {cgs : List (CaptureGroup × List Char)} {g : CaptureGroup}
    (h : firstMissing vars cgs = some g) :
    lookupGroup cgs g = none ∧ ∃ st en, (g, st, en) ∈ vars := by
  obtain ⟨e, hmem, hfe⟩ := List.exists_of_findSome?_eq_some h
  by_cases hl : (lookupGroup cgs e.1).isNone
  · simp only [hl, if_pos] at hfe
    cases hfe
    exact ⟨Option.isNone_iff_eq_none.mp hl, e.2.1, e.2.2, hmem⟩
  · simp [hl] at hfe

end Srgn

namespace Srgn

/-- C10: `Replacement::act` returns the stored, escape-processed template
verbatim, independently of the input fragment's content; in particular no
variable reference is substituted when no context is supplied. -/
theorem act_returns_template_verbatim (r : Replacement) (input input' : List Char) :
    r.act input = r.repl ∧ r.act input = r.act input' :=
  ⟨rfl, rfl⟩

/-- C7: an action that does not override the context-aware operation (its
`actWithContext` is the trait's default body) produces output independent of
the supplied context, identical to the context-free `act`. -/
theorem default_act_with_context_ignores_context (a : ActionImpl)
    (h : a.actWithContext = fun input _ => a.act input) (input : List Char)
    (c₁ c₂ : ScopeContext) :
    a.actWithContext input c₁ = a.act input ∧
      a.actWithContext input c₁ = a.actWithContext input c₂ := by
  rw [h]
  exact ⟨rfl, rfl⟩

/-- Witness for C7 at a concrete non-overriding action and two distinct
contexts. -/
theorem default_act_with_context_ignores_context_witness :
    ({ act := fun s => s : ActionImpl }).actWithContext "ab".data
        (.captureGroups []) = "ab".data ∧
      ({ act := fun s => s : ActionImpl }).actWithContext "ab".data
          (.captureGroups [])
        = ({ act := fun s => s : ActionImpl }).actWithContext "ab".data
            (.captureGroups [(CaptureGroup.numbered 0, "z".data)]) :=
  default_act_with_context_ignores_context _ rfl _ _ _

/-- C1: applying a templated replacement with context against bindings that
lack a referenced group yields the typed missing-capture-group error (for a
group that is indeed unbound), never an output string. -/
theorem act_with_context_missing_group_errors (r : Replacement)
    (input : List Char) (cgs : List (CaptureGroup × List Char))
    (g : CaptureGroup) (st en : Nat)
    (href : (g, st, en) ∈ r.varPositions)
    (hunbound : lookupGroup cgs g = none) :
    ∃ g', r.actWithContext input (.captureGroups cgs)
        = .error (.missingCaptureGroup g') ∧ lookupGroup cgs g' = none := by
  have hres : r.actWithContext input (.captureGroups cgs)
      = match firstMissing r.varPositions cgs with
        | some g' => .error (.missingCaptureGroup g')
        | none => .ok (substGo cgs r.varPositions r.repl 0 0) := rfl
  cases hfm : firstMissing r.varPositions cgs with
  | some g' =>
    refine ⟨g', ?_, (firstMissing_spec hfm).1⟩
    rw [hres, hfm]
  | none =>
    exfalso
    obtain ⟨b', hb'⟩ := findSome?_isSome_of_mem
      (f := fun e => if (lookupGroup cgs e.1).isNone then some e.1 else none)
      (b := g) href (by simp [hunbound])
    exact Option.some_ne_none b' (hb' ▸ hfm)

/-- Witness for C1: the template `$undefined` against empty bindings. -/
theorem act_with_context_missing_group_errors_witness :
    ∃ g', Replacement.actWithContext
          ⟨"$undefined".data, [(.named "undefined".data, 0, 10)]⟩
          "fragment".data (.captureGroups [])
        = .error (.missingCaptureGroup g') ∧ lookupGroup [] g' = none :=
  act_with_context_missing_group_errors _ _ _ (.named "undefined".data) 0 10
    (by simp) rfl

/-- C2 (code bug): on the template `"ä$x"` the variable occurrence `$x` spans
bytes `2..4` (the `ä` occupies bytes `0..2`), but the extraction — indexing by
`chars().enumerate()` in the loop while using the byte length `input.len()`
when flushing — records the range `1..4`, which is not the byte span of the
occurrence (nor its character span `1..3`). -/
theorem inject_variables_non_ascii_range_mismatch :
    injectVariables "ä$x".data = .ok [(.named "x".data, 1, 4)] ∧
      byteLen "ä".data = 2 ∧ byteLen "ä$x".data = 4 :=
  ⟨rfl, rfl, rfl⟩

/-- C9: a numbered variable's magnitude accumulates left to right as
`magnitude * 10 + digit`, so leading zeros do not change the group
(`$007` and `$7` both reference `Numbered(7)`), and `"$0hello"` parses to
exactly `Numbered(0)` at `0..2` with `hello` left as literal text. -/
theorem numbered_variable_magnitude (m st n i : Nat) (c : Char)
    (hc : isDigitChar c = true) :
    step (.buildingNumbered m st n) c i
        = .ok (.buildingNumbered (m * 10 + digitVal c) st n, none) ∧
      injectVariables "$007".data = .ok [(.numbered 7, 0, 4)] ∧
      injectVariables "$7".data = .ok [(.numbered 7, 0, 2)] ∧
      injectVariables "$0hello".data = .ok [(.numbered 0, 0, 2)] := by
  refine ⟨?_, rfl, rfl, rfl⟩
  simp [step, hc]

/-- Witness for C9 at the digit `5` read while the magnitude is `3`. -/
theorem numbered_variable_magnitude_witness :
    step (.buildingNumbered 3 0 0) '5' 9 = .ok (.buildingNumbered 35 0 0, none) ∧
      injectVariables "$007".data = .ok [(.numbered 7, 0, 4)] :=
  ⟨(numbered_variable_magnitude 3 0 0 9 '5' (by decide)).1,
    (numbered_variable_magnitude 3 0 0 9 '5' (by decide)).2.1⟩

/-- Unfolding equation of `runFrom` on a non-empty template. -/
theorem runFrom_cons (s : MState) (i : Nat) (c : Char) (cs : List Char) :
    runFrom s i (c :: cs)
      = match step s c i with
        | .error e => .error e
        | .ok (s', em) =>
          match runFrom s' (i + 1) cs with
          | .error e => .error e
          | .ok (sf, ems) => .ok (sf, em.toList ++ ems) := rfl

/-- Processing a run of `$` characters alternates between `Neutral` and
`MaybeVariableStart` and records no variable, from either starting state. -/
theorem runFrom_dollar_replicate (n i : Nat) :
    runFrom .noop i (List.replicate n '$')
        = .ok (if n % 2 = 0 then .noop else .maybeVariableStart, []) ∧
      runFrom .maybeVariableStart i (List.replicate n '$')
        = .ok (if n % 2 = 0 then .maybeVariableStart else .noop, []) := by
  induction n generalizing i with
  | zero => exact ⟨rfl, rfl⟩
  | succ m ih =>
    rw [List.replicate_succ]
    constructor
    · have hstep : runFrom .noop i ('$' :: List.replicate m '$')
          = match runFrom .maybeVariableStart (i + 1) (List.replicate m '$') with
            | .error e => .error e
            | .ok (sf, ems) => .ok (sf, ems) := rfl
      rw [hstep, (ih (i + 1)).2]
      rcases Nat.mod_two_eq_zero_or_one m with h | h
      · have h' : (m + 1) % 2 = 1 := by omega
        simp [h, h']
      · have h' : (m + 1) % 2 = 0 := by omega
        simp [h, h']
    · have hstep : runFrom .maybeVariableStart i ('$' :: List.replicate m '$')
          = match runFrom .noop (i + 1) (List.replicate m '$') with
            | .error e => .error e
            | .ok (sf, ems) => .ok (sf, ems) := rfl
      rw [hstep, (ih (i + 1)).1]
      rcases Nat.mod_two_eq_zero_or_one m with h | h
      · have h' : (m + 1) % 2 = 1 := by omega
        simp [h, h']
      · have h' : (m + 1) % 2 = 0 := by omega
        simp [h, h']

/-- C4: dollar escaping — `"$$notavar"` parses to zero variables,
`"$$$avar"` to exactly `Named("avar")` at `2..7`; a `$` read from
`MaybeVariableStart` (an unresolved `$`) cancels both back to `Neutral`, and
in general an even run of consecutive `$` from `Neutral` is consumed entirely
literally (ending in `Neutral`, no variable recorded) while an odd run ends in
`MaybeVariableStart`, its last `$` pending as a potential variable start. -/
theorem dollar_escaping :
    injectVariables "$$notavar".data = .ok [] ∧
      injectVariables "$$$avar".data = .ok [(.named "avar".data, 2, 7)] ∧
      (∀ i, step .maybeVariableStart '$' i = .ok (.noop, none)) ∧
      (∀ n i, runFrom .noop i (List.replicate (2 * n) '$') = .ok (.noop, []) ∧
        runFrom .noop i (List.replicate (2 * n + 1) '$')
          = .ok (.maybeVariableStart, [])) := by
  refine ⟨rfl, rfl, fun i => rfl, fun n i => ⟨?_, ?_⟩⟩
  · have h := (runFrom_dollar_replicate (2 * n) i).1
    have h2 : (2 * n) % 2 = 0 := by omega
    simpa [h2] using h
  · have h := (runFrom_dollar_replicate (2 * n + 1) i).1
    have h2 : (2 * n + 1) % 2 = 1 := by omega
    simpa [h2] using h

/-- C3 (counterexample): a `$` read from `WindUpBraces` does *not* return the
machine to `Neutral` — the arm `(Noop | WindUpBraces(_), '$')` precedes the
fallback arm, so it moves to `MaybeVariableStart`, and the template `${$var`
does begin (and complete) a new variable attempt. -/
theorem windup_dollar_counterexample :
    step (.windUpBraces 1) '$' 2 = .ok (.maybeVariableStart, none) ∧
      (MState.maybeVariableStart ≠ MState.noop) ∧
      injectVariables "$\x7b$var".data = .ok [(.named "var".data, 2, 6)] :=
  ⟨rfl, by decide, rfl⟩

/-- C3 (amended): from `MaybeVariableStart`, any character that is not `{`,
not a letter or underscore and not a digit — including another `$` — returns
the machine to `Neutral`; from `WindUpBraces(n)` the same holds for every such
character *except* `$`, which instead moves to `MaybeVariableStart` (so
`${$var` does begin a new variable attempt). -/
theorem fallback_to_neutral (c : Char) (i n : Nat) :
    (isWordStart c = false → isDigitChar c = false → c ≠ '{' →
        step .maybeVariableStart c i = .ok (.noop, none) ∧
          (c ≠ '$' → step (.windUpBraces n) c i = .ok (.noop, none))) ∧
      step .maybeVariableStart '$' i = .ok (.noop, none) ∧
      step (.windUpBraces n) '$' i = .ok (.maybeVariableStart, none) := by
  refine ⟨fun hw hd hbrace => ⟨?_, fun hdollar => ?_⟩, rfl, rfl⟩
  · simp [step, hw, hd, hbrace]
  · simp [step, hw, hd, hbrace, hdollar]

/-- A loop step fails exactly on a character that, with a variable in
progress at brace depth `> 0`, neither extends the variable nor is `}`. -/
theorem step_error_iff (s : MState) (c : Char) (i : Nat) :
    step s c i = .error () ↔
      inProgress s = true ∧ 0 < braceDepth s ∧ continuesVar s c = false ∧
        c ≠ '}' := by
  cases s with
  | noop =>
    simp only [step, inProgress]
    split_ifs <;> simp
  | maybeVariableStart =>
    simp only [step, inProgress]
    split_ifs <;> simp
  | windUpBraces n =>
    simp only [step, inProgress]
    split_ifs <;> simp
  | buildingNamed name st n =>
    simp only [step, inProgress, braceDepth, continuesVar]
    split_ifs with h1 h2 h3 <;> simp_all <;> omega
  | windDownNamed name st n =>
    simp only [step, inProgress, braceDepth, continuesVar]
    split_ifs with h1 h2 <;> simp_all <;> omega
  | buildingNumbered m st n =>
    simp only [step, inProgress, braceDepth, continuesVar]
    split_ifs with h1 h2 h3 <;> simp_all <;> omega
  | windDownNumbered m st n =>
    simp only [step, inProgress, braceDepth, continuesVar]
    split_ifs with h1 h2 <;> simp_all <;> omega

/-- The end-of-input flush fails exactly on a variable in progress at brace
depth `> 0`. -/
theorem flush_error_iff (s : MState) (L : Nat) :
    flush s L = .error () ↔ inProgress s = true ∧ 0 < braceDepth s := by
  cases s with
  | noop => simp [flush, inProgress]
  | maybeVariableStart => simp [flush, inProgress]
  | windUpBraces n => simp [flush, inProgress]
  | buildingNamed name st n => cases n <;> simp [flush, inProgress, braceDepth]
  | windDownNamed name st n => cases n <;> simp [flush, inProgress, braceDepth]
  | buildingNumbered m st n => cases n <;> simp [flush, inProgress, braceDepth]
  | windDownNumbered m st n => cases n <;> simp [flush, inProgress, braceDepth]

/-- The loop fails exactly when some character, reached after a successful
prefix, produces a failing step. -/
theorem runFrom_error_iff (cs : List Char) (s : MState) (i : Nat) :
    (∃ e, runFrom s i cs = .error e) ↔
      ∃ p c r s' ems, cs = p ++ c :: r ∧ runFrom s i p = .ok (s', ems) ∧
        step s' c (i + p.length) = .error () := by
  induction cs generalizing s i with
  | nil =>
    constructor
    · rintro ⟨e, he⟩
      exact absurd he (by simp [runFrom])
    · rintro ⟨p, c, r, s', ems, hpc, -, -⟩
      exact absurd hpc (by simp)
  | cons c cs ih =>
    cases hstep : step s c i with
    | error e =>
      cases e
      constructor
      · intro _
        exact ⟨[], c, cs, s, [], rfl, rfl, by simpa using hstep⟩
      · intro _
        exact ⟨(), by rw [runFrom_cons, hstep]⟩
    | ok pair =>
      obtain ⟨s1, em⟩ := pair
      have hrun : runFrom s i (c :: cs)
          = match runFrom s1 (i + 1) cs with
            | .error e => .error e
            | .ok (sf, ems) => .ok (sf, em.toList ++ ems) := by
        rw [runFrom_cons, hstep]
      constructor
      · rintro ⟨e, he⟩
        rw [hrun] at he
        have herr : ∃ e', runFrom s1 (i + 1) cs = .error e' := by
          cases hr : runFrom s1 (i + 1) cs with
          | error e' => exact ⟨e', rfl⟩
          | ok pr =>
            rw [hr] at he
            obtain ⟨sf, ems⟩ := pr
            simp at he
        obtain ⟨p, c', r, s', ems, hcs, hp, hstep'⟩ := (ih s1 (i + 1)).mp herr
        refine ⟨c :: p, c', r, s', em.toList ++ ems, by rw [hcs, List.cons_append],
          ?_, ?_⟩
        · have hrunp : runFrom s i (c :: p)
              = match runFrom s1 (i + 1) p with
                | .error e => .error e
                | .ok (sf, ems') => .ok (sf, em.toList ++ ems') := by
            rw [runFrom_cons, hstep]
          rw [hrunp, hp]
        · have harith : i + (c :: p).length = (i + 1) + p.length := by
            simp [List.length_cons]
            omega
          rw [harith]
          exact hstep'
      · rintro ⟨p, c', r, s', ems, hcs, hp, hstep'⟩
        cases p with
        | nil =>
          cases hcs
          have hp' : Except.ok (ε := Unit) (s, ([] : List Emission))
              = .ok (s', ems) := hp
          cases hp'
          rw [show i + ([] : List Char).length = i by simp] at hstep'
          rw [hstep] at hstep'
          cases hstep'
        | cons x p' =>
          injection hcs with hx hcs'
          cases hx
          have hrunp : runFrom s i (c :: p')
              = match runFrom s1 (i + 1) p' with
                | .error e => .error e
                | .ok (sf, ems') => .ok (sf, em.toList ++ ems') := by
            rw [runFrom_cons, hstep]
          have hp' : (match runFrom s1 (i + 1) p' with
              | .error e => .error e
              | .ok (sf, ems') => .ok (sf, em.toList ++ ems'))
                = Except.ok (s', ems) := by
            rw [← hrunp]
            exact hp
          have hmid : ∃ ems2, runFrom s1 (i + 1) p' = .ok (s', ems2) := by
            cases hr : runFrom s1 (i + 1) p' with
            | error e2 =>
              rw [hr] at hp'
              simp at hp'
            | ok pr =>
              obtain ⟨sf, ems2⟩ := pr
              rw [hr] at hp'
              simp at hp'
              exact ⟨ems2, by rw [hp'.1]⟩
          obtain ⟨ems2, hr2⟩ := hmid
          have hstep'' : step s' c' ((i + 1) + p'.length) = .error () := by
            have harith : i + (c :: p').length = (i + 1) + p'.length := by
              simp [List.length_cons]
              omega
            rw [← harith]
            exact hstep'
          obtain ⟨e', he'⟩ := (ih s1 (i + 1)).mpr
            ⟨p', c', r, s', ems2, hcs', hr2, hstep''⟩
          exact ⟨e', by rw [hrun, he']⟩

/-- `injectVariables` fails exactly when the loop or the flush fails. -/
theorem injectVariables_error_cases (input : List Char) :
    (∃ e, injectVariables input = .error e) ↔
      (∃ e, runFrom .noop 0 input = .error e) ∨
        (∃ s ems, runFrom .noop 0 input = .ok (s, ems) ∧
          flush s (byteLen input) = .error ()) := by
  unfold injectVariables
  cases hr : runFrom .noop 0 input with
  | error e => simp [hr]
  | ok pair =>
    obtain ⟨s, ems⟩ := pair
    cases hf : flush s (byteLen input) with
    | error e =>
      cases e
      simp [hr, hf]
    | ok o => cases o <;> simp [hr, hf]

/-- C5 (amended): variable extraction returns `MismatchedBraces`, carrying the
offending template, exactly when it reads a character that — with a variable
in progress at brace depth `> 0` — can neither extend the variable (letter,
digit or underscore for a named variable; digit for a numbered one) nor is
`}`, or when it reaches end of input with a variable in progress at brace
depth `> 0`; end of input at depth `0` with a variable in progress is no
error: the variable is finalized with its range extending to the end (byte
length) of the template. -/
theorem mismatched_braces_characterization :
    (∀ (s : MState) (c : Char) (i : Nat),
      step s c i = .error () ↔
        inProgress s = true ∧ 0 < braceDepth s ∧ continuesVar s c = false ∧
          c ≠ '}') ∧
    (∀ input : List Char,
      (∃ e, injectVariables input = .error e) ↔
        (∃ p c r s' ems, input = p ++ c :: r ∧
          runFrom .noop 0 p = .ok (s', ems) ∧ inProgress s' = true ∧
            0 < braceDepth s' ∧ continuesVar s' c = false ∧ c ≠ '}') ∨
        (∃ s ems, runFrom .noop 0 input = .ok (s, ems) ∧ inProgress s = true ∧
          0 < braceDepth s)) ∧
    (∀ (input : List Char) (e : VariableExpressionError),
      injectVariables input = .error e → e = .mismatchedBraces input) ∧
    (∀ (input : List Char) (s : MState) (ems : List Emission),
      runFrom .noop 0 input = .ok (s, ems) → inProgress s = true →
        braceDepth s = 0 →
        ∃ g st, injectVariables input = .ok (ems ++ [(g, st, byteLen input)])) := by
  refine ⟨step_error_iff, ?_, ?_, ?_⟩
  · intro input
    rw [injectVariables_error_cases, runFrom_error_iff]
    constructor
    · rintro (⟨p, c, r, s', ems, hcs, hp, hstep⟩ | ⟨s, ems, hr, hf⟩)
      · obtain ⟨h1, h2, h3, h4⟩ := (step_error_iff s' c (0 + p.length)).mp hstep
        exact Or.inl ⟨p, c, r, s', ems, hcs, hp, h1, h2, h3, h4⟩
      · obtain ⟨h1, h2⟩ := (flush_error_iff s (byteLen input)).mp hf
        exact Or.inr ⟨s, ems, hr, h1, h2⟩
    · rintro (⟨p, c, r, s', ems, hcs, hp, h1, h2, h3, h4⟩ | ⟨s, ems, hr, h1, h2⟩)
      · exact Or.inl ⟨p, c, r, s', ems, hcs, hp,
          (step_error_iff s' c (0 + p.length)).mpr ⟨h1, h2, h3, h4⟩⟩
      · exact Or.inr ⟨s, ems, hr, (flush_error_iff s (byteLen input)).mpr ⟨h1, h2⟩⟩
  · intro input e he
    unfold injectVariables at he
    cases hr : runFrom .noop 0 input with
    | error e2 =>
      rw [hr] at he
      simp at he
      exact he.symm
    | ok pair =>
      obtain ⟨s, ems⟩ := pair
      rw [hr] at he
      simp only [] at he
      cases hf : flush s (byteLen input) with
      | error e2 =>
        rw [hf] at he
        simp at he
        exact he.symm
      | ok o =>
        rw [hf] at he
        cases o <;> simp at he
  · intro input s ems hr hprog hdepth
    have hflush : ∃ g st,
        flush s (byteLen input) = .ok (some (g, st, byteLen input)) := by
      cases s with
      | buildingNamed name st n =>
        cases n with
        | zero => exact ⟨.named name, st, rfl⟩
        | succ k => simp [braceDepth] at hdepth
      | windDownNamed name st n =>
        cases n with
        | zero => exact ⟨.named name, st, rfl⟩
        | succ k => simp [braceDepth] at hdepth
      | buildingNumbered m st n =>
        cases n with
        | zero => exact ⟨.numbered m, st, rfl⟩
        | succ k => simp [braceDepth] at hdepth
      | windDownNumbered m st n =>
        cases n with
        | zero => exact ⟨.numbered m, st, rfl⟩
        | succ k => simp [braceDepth] at hdepth
      | noop => simp [inProgress] at hprog
      | maybeVariableStart => simp [inProgress] at hprog
      | windUpBraces n => simp [inProgress] at hprog
    obtain ⟨g, st, hf⟩ := hflush
    refine ⟨g, st, ?_⟩
    unfold injectVariables
    rw [hr]
    simp [hf]

/-- C5 (counterexample): parsing `"$\x7b12\x7d"`, the machine reads the character
`'2'` — which is not `}` — while the current (numbered) variable's brace depth
is `1 > 0`, yet extraction succeeds with `Numbered(12)` at `0..5` instead of
returning `MismatchedBraces`. -/
theorem mismatched_braces_claim_counterexample :
    runFrom .noop 0 "$\x7b1".data = .ok (.buildingNumbered 1 0 1, []) ∧
      braceDepth (.buildingNumbered 1 0 1) = 1 ∧
      ('2' : Char) ≠ '}' ∧
      injectVariables "$\x7b12\x7d".data = .ok [(.numbered 12, 0, 5)] :=
  ⟨rfl, rfl, by decide, rfl⟩

/-- Witness for C5's amended statement: `"$ab"` ends at depth `0` with a named
variable in progress and is finalized to the template's end. -/
theorem mismatched_braces_characterization_witness :
    ∃ g st, injectVariables "$ab".data
        = .ok ([] ++ [(g, st, byteLen "$ab".data)]) :=
  mismatched_braces_characterization.2.2.2 "$ab".data
    (.buildingNamed "ab".data 0 0) [] rfl rfl rfl

/-- The sweep of `merge` always emits a list whose head starts where the
current interval starts. -/
theorem mergeSweep_head (xs : List (Nat × Nat)) (cur : Nat × Nat) :
    ∃ e t, mergeSweep cur xs = (cur.1, e) :: t := by
  induction xs generalizing cur with
  | nil => exact ⟨cur.2, [], by simp [mergeSweep]⟩
  | cons x xs ih =>
    by_cases h : x.1 ≤ cur.2
    · obtain ⟨e, t, ht⟩ := ih (cur.1, max cur.2 x.2)
      exact ⟨e, t, by simpa [mergeSweep, h] using ht⟩
    · exact ⟨cur.2, mergeSweep x xs, by simp [mergeSweep, h]⟩

/-- The sweep of `merge` emits separated intervals: each ends strictly before
the next starts (no overlapping, no touching). -/
theorem mergeSweep_sep (xs : List (Nat × Nat)) (cur : Nat × Nat) :
    List.Chain' (fun u v => u.2 < v.1) (mergeSweep cur xs) := by
  induction xs generalizing cur with
  | nil => simp [mergeSweep]
  | cons x xs ih =>
    by_cases h : x.1 ≤ cur.2
    · simpa [mergeSweep, h] using ih (cur.1, max cur.2 x.2)
    · rw [show mergeSweep cur (x :: xs) = cur :: mergeSweep x xs by
        simp [mergeSweep, h]]
      rw [List.chain'_cons']
      refine ⟨?_, ih x⟩
      intro y hy
      obtain ⟨e, t, ht⟩ := mergeSweep_head xs x
      rw [ht] at hy
      simp at hy
      cases hy
      simp
      omega

/-- The sweep of `merge` preserves well-formedness of intervals. -/
theorem mergeSweep_wf (xs : List (Nat × Nat)) (cur : Nat × Nat)
    (hc : cur.1 ≤ cur.2) (hxs : ∀ x ∈ xs, x.1 ≤ x.2) :
    ∀ y ∈ mergeSweep cur xs, y.1 ≤ y.2 := by
  induction xs generalizing cur with
  | nil =>
    intro y hy
    simp [mergeSweep] at hy
    rw [hy]
    exact hc
  | cons x xs ih =>
    intro y hy
    by_cases h : x.1 ≤ cur.2
    · rw [show mergeSweep cur (x :: xs) = mergeSweep (cur.1, max cur.2 x.2) xs by
        simp [mergeSweep, h]] at hy
      exact ih (cur.1, max cur.2 x.2) (le_trans hc (le_max_left _ _))
        (fun z hz => hxs z (List.mem_cons_of_mem _ hz)) y hy
    · rw [show mergeSweep cur (x :: xs) = cur :: mergeSweep x xs by
        simp [mergeSweep, h]] at hy
      rcases List.mem_cons.mp hy with rfl | hy'
      · exact hc
      · exact ih x (hxs x (List.mem_cons_self _ _))
          (fun z hz => hxs z (List.mem_cons_of_mem _ hz)) y hy'

/-- `merge` output is separated (C8's "no two overlap or touch" between
adjacent elements). -/
theorem merge_sep (rs : List (Nat × Nat)) :
    List.Chain' (fun u v => u.2 < v.1) (merge rs) := by
  unfold merge
  cases rs.insertionSort fun a b => a.1 ≤ b.1 with
  | nil => simp
  | cons x xs => exact mergeSweep_sep xs x

/-- `merge` preserves well-formedness of intervals. -/
theorem merge_wf (rs : List (Nat × Nat)) (h : ∀ x ∈ rs, x.1 ≤ x.2) :
    ∀ y ∈ merge rs, y.1 ≤ y.2 := by
  unfold merge
  cases hs : rs.insertionSort (fun a b => a.1 ≤ b.1) with
  | nil => simp
  | cons x xs =>
    have hall : ∀ z ∈ x :: xs, z.1 ≤ z.2 := by
      intro z hz
      apply h
      have hz' : z ∈ rs.insertionSort (fun a b => a.1 ≤ b.1) := hs ▸ hz
      exact (List.perm_insertionSort _ rs).mem_iff.mp hz'
    exact mergeSweep_wf xs x (hall x (List.mem_cons_self _ _))
      fun z hz => hall z (List.mem_cons_of_mem _ hz)

/-- Every piece cut from an interval stays within that interval's span. -/
theorem cut_bounds (b x : Nat × Nat) :
    ∀ p ∈ cut b x, x.1 ≤ p.1 ∧ p.2 ≤ x.2 := by
  intro p hp
  unfold cut at hp
  split_ifs at hp with hb h1 h2
  · simp at hp
    subst hp
    exact ⟨le_refl _, le_refl _⟩
  · simp at hp
    rcases hp with rfl | rfl
    · exact ⟨le_refl _, min_le_left _ _⟩
    · exact ⟨le_max_left _ _, le_refl _⟩
  · simp at hp
    subst hp
    exact ⟨le_refl _, min_le_left _ _⟩
  · simp at hp
    subst hp
    exact ⟨le_max_left _ _, le_refl _⟩
  · simp at hp

/-- Every piece cut from a well-formed interval is well-formed. -/
theorem cut_wf (b x : Nat × Nat) (hx : x.1 ≤ x.2) :
    ∀ p ∈ cut b x, p.1 ≤ p.2 := by
  intro p hp
  unfold cut at hp
  split_ifs at hp with hb h1 h2 <;> simp at hp
  · subst hp
    exact hx
  · rcases hp with rfl | rfl <;> omega
  · subst hp
    omega
  · subst hp
    omega

/-- The at most two pieces cut from one interval are separated. -/
theorem cut_sep (b x : Nat × Nat) :
    List.Chain' (fun u v => u.2 < v.1) (cut b x) := by
  unfold cut
  split_ifs with hb h1 h2 <;> simp <;> omega

/-- In a separated chain of well-formed intervals, the head ends strictly
before every later interval starts. -/
theorem chain_sep_lt_of_mem :
    ∀ {l : List (Nat × Nat)} {x : Nat × Nat},
      List.Chain' (fun u v => u.2 < v.1) (x :: l) →
        (∀ y ∈ l, y.1 ≤ y.2) → ∀ y ∈ l, x.2 < y.1 := by
  intro l
  induction l with
  | nil =>
    intro x _ _ y hy
    cases hy
  | cons z zs ih =>
    intro x hchain hwf y hy
    have hxz : x.2 < z.1 := (List.chain'_cons.mp hchain).1
    rcases List.mem_cons.mp hy with rfl | hy'
    · exact hxz
    · have hz := ih (List.chain'_cons.mp hchain).2
        (fun w hw => hwf w (List.mem_cons_of_mem _ hw)) y hy'
      have hzwf : z.1 ≤ z.2 := hwf z (List.mem_cons_self _ _)
      omega

/-- Cutting one subtrahend interval out of a separated list of well-formed
intervals keeps the list separated. -/
theorem flatMap_cut_sep (b : Nat × Nat) :
    ∀ l : List (Nat × Nat), (∀ y ∈ l, y.1 ≤ y.2) →
      List.Chain' (fun u v => u.2 < v.1) l →
      List.Chain' (fun u v => u.2 < v.1) (l.flatMap (cut b)) := by
  intro l
  induction l with
  | nil => simp
  | cons x xs ih =>
    intro hwf hchain
    rw [List.flatMap_cons]
    refine List.Chain'.append (cut_sep b x)
      (ih (fun y hy => hwf y (List.mem_cons_of_mem _ hy)) hchain.tail) ?_
    intro p hp q hq
    have hpb := (cut_bounds b x p (List.mem_of_mem_getLast? hp)).2
    obtain ⟨y, hy, hqy⟩ := List.mem_flatMap.mp (List.mem_of_mem_head? hq)
    have hq1 := (cut_bounds b y q hqy).1
    have hxy : x.2 < y.1 := chain_sep_lt_of_mem hchain
      (fun z hz => hwf z (List.mem_cons_of_mem _ hz)) y hy
    omega

/-- Cutting preserves well-formedness across a whole list. -/
theorem flatMap_cut_wf (b : Nat × Nat) (l : List (Nat × Nat))
    (hwf : ∀ y ∈ l, y.1 ≤ y.2) :
    ∀ p ∈ l.flatMap (cut b), p.1 ≤ p.2 := by
  intro p hp
  obtain ⟨y, hy, hpy⟩ := List.mem_flatMap.mp hp
  exact cut_wf b y (hwf y hy) p hpy

/-- `subtract` preserves well-formedness and separation of the minuend. -/
theorem subtract_normal :
    ∀ (b a : List (Nat × Nat)), (∀ y ∈ a, y.1 ≤ y.2) →
      List.Chain' (fun u v => u.2 < v.1) a →
      (∀ y ∈ subtract a b, y.1 ≤ y.2) ∧
        List.Chain' (fun u v => u.2 < v.1) (subtract a b) := by
  intro b
  induction b with
  | nil =>
    intro a hwf hchain
    exact ⟨hwf, hchain⟩
  | cons bi bs ih =>
    intro a hwf hchain
    have h1 : subtract a (bi :: bs) = subtract (a.flatMap (cut bi)) bs := rfl
    rw [h1]
    exact ih _ (flatMap_cut_wf bi a hwf) (flatMap_cut_sep bi a hwf hchain)

/-- A separated chain of well-formed intervals is pairwise ascending and
non-overlapping, non-touching. -/
theorem chain_sep_pairwise :
    ∀ l : List (Nat × Nat), (∀ y ∈ l, y.1 ≤ y.2) →
      List.Chain' (fun u v => u.2 < v.1) l →
      List.Pairwise (fun u v => u.1 < v.1 ∧ u.2 < v.1) l := by
  intro l
  induction l with
  | nil => simp
  | cons x xs ih =>
    intro hwf hchain
    refine List.Pairwise.cons ?_
      (ih (fun y hy => hwf y (List.mem_cons_of_mem _ hy)) hchain.tail)
    intro y hy
    have h2 : x.2 < y.1 := chain_sep_lt_of_mem hchain
      (fun z hz => hwf z (List.mem_cons_of_mem _ hz)) y hy
    have h1 : x.1 ≤ x.2 := hwf x (List.mem_cons_self _ _)
    omega

/-- C8: every range set returned by the grammar-query scoping operation —
with or without a negative query — is normalized: pairwise ascending by start
with no two ranges overlapping or touching (assuming, as for tree-sitter
nodes, that each capture's reported byte ranges are well-formed). -/
theorem scope_via_query_normalized (f : Frobulator) (input : List Char)
    (hwf : ∀ cap ∈ f.posQuery.captures, ∀ r ∈ cap.2 input, r.1 ≤ r.2) :
    List.Pairwise (fun u v => u.1 < v.1 ∧ u.2 < v.1) (scopeViaQuery f input) := by
  have hposwf : ∀ y ∈ runQuery f.posQuery input, y.1 ≤ y.2 := by
    apply merge_wf
    intro y hy
    obtain ⟨cap, hcap, hycap⟩ := List.mem_flatMap.mp hy
    exact hwf cap hcap y hycap
  have hpossep : List.Chain' (fun u v => u.2 < v.1) (runQuery f.posQuery input) :=
    merge_sep (f.posQuery.captures.flatMap fun cap => cap.2 input)
  cases hnq : f.negQuery with
  | none =>
    rw [show scopeViaQuery f input = runQuery f.posQuery input from by
      unfold scopeViaQuery
      rw [hnq]]
    exact chain_sep_pairwise _ hposwf hpossep
  | some nq =>
    rw [show scopeViaQuery f input
        = subtract (runQuery f.posQuery input) (runQuery nq input) from by
      unfold scopeViaQuery
      rw [hnq]]
    obtain ⟨hwf2, hsep2⟩ := subtract_normal (runQuery nq input)
      (runQuery f.posQuery input) hposwf hpossep
    exact chain_sep_pairwise _ hwf2 hsep2

/-- Witness for C8 at a concrete two-capture query (one ignore-tagged) and a
concrete input. -/
theorem scope_via_query_normalized_witness :
    List.Pairwise (fun u v => u.1 < v.1 ∧ u.2 < v.1)
      (scopeViaQuery (newScoper ⟨[("cap".data, fun _ => [(0, 5), (3, 9)]),
        ("_SRGN_IGNOREmark".data, fun _ => [(4, 6)])]⟩) "x".data) := by
  apply scope_via_query_normalized
  intro cap hcap r hr
  have hcap' : cap ∈ [("cap".data, fun (_ : List Char) => [(0, 5), (3, 9)]),
      ("_SRGN_IGNOREmark".data, fun _ => [(4, 6)])] := hcap
  rcases List.mem_cons.mp hcap' with rfl | h2
  · have hr' : r ∈ [(0, 5), (3, 9)] := hr
    rcases List.mem_cons.mp hr' with rfl | hr''
    · omega
    · rcases List.mem_cons.mp hr'' with rfl | hr'''
      · omega
      · cases hr'''
  · rcases List.mem_cons.mp h2 with rfl | h3
    · have hr' : r ∈ [(4, 6)] := hr
      rcases List.mem_cons.mp hr' with rfl | hr''
      · omega
      · cases hr''
    · cases h3

/-- Disabling a list of capture names one by one filters out exactly the
captures whose name is in that list. -/
theorem foldl_disableCapture (names : List (List Char)) (q : TSQuery) :
    (names.foldl (fun acc name => disableCapture acc name) q).captures
      = q.captures.filter fun cap => decide (cap.1 ∉ names) := by
  induction names generalizing q with
  | nil => simp
  | cons n ns ih =>
    rw [List.foldl_cons, ih]
    show (q.captures.filter fun cap => cap.1 != n).filter
        (fun cap => decide (cap.1 ∉ ns)) = _
    rw [List.filter_filter]
    apply List.filter_congr
    intro cap _
    by_cases h1 : cap.1 = n <;> by_cases h2 : cap.1 ∈ ns <;> simp [h1, h2]

/-- When the query has ignore-tagged captures, `negate` yields the same query
restricted to exactly those tagged captures. -/
theorem negate_captures (q : TSQuery) (h : hasIgnoredCaptures q = true) :
    ∃ nq, negate q = some nq ∧
      nq.captures = q.captures.filter fun cap => isIgnored cap.1 := by
  refine ⟨((captureNames q).filter fun name => !isIgnored name).foldl
      (fun acc name => disableCapture acc name) q, by simp [negate, h], ?_⟩
  rw [foldl_disableCapture]
  apply List.filter_congr
  intro cap hcap
  have hmem : cap.1 ∈ captureNames q := List.mem_map_of_mem _ hcap
  by_cases hi : isIgnored cap.1 = true
  · simp [hi, List.mem_filter]
  · simp only [Bool.not_eq_true] at hi
    simp [hi, List.mem_filter, hmem]

/-- C6: when the query carries at least one ignore-tagged capture, the
effective in-scope ranges are the merged full-query ranges minus the merged
ranges of the same query with every non-ignored capture disabled; with no
tagged capture no negative query is constructed and the result is exactly the
full query's merged ranges. -/
theorem scope_via_query_negation (q : TSQuery) (input : List Char) :
    (hasIgnoredCaptures q = true →
      scopeViaQuery (newScoper q) input
        = subtract (runQuery q input)
            (runQuery ⟨q.captures.filter fun cap => isIgnored cap.1⟩ input)) ∧
    (hasIgnoredCaptures q = false →
      negate q = none ∧ scopeViaQuery (newScoper q) input = runQuery q input) := by
  constructor
  · intro h
    obtain ⟨nq, hnq, hcaps⟩ := negate_captures q h
    have h1 : scopeViaQuery (newScoper q) input
        = subtract (runQuery q input) (runQuery nq input) := by
      unfold scopeViaQuery
      rw [show (newScoper q).negQuery = some nq from hnq]
      rfl
    rw [h1]
    unfold runQuery
    rw [hcaps]
  · intro h
    have hnone : negate q = none := by simp [negate, h]
    refine ⟨hnone, ?_⟩
    unfold scopeViaQuery
    rw [show (newScoper q).negQuery = none from hnone]
    rfl

/-- Witness for C6 at a concrete query with one ignore-tagged capture. -/
theorem scope_via_query_negation_witness :
    scopeViaQuery (newScoper ⟨[("cap".data, fun _ => [(0, 5), (3, 9)]),
        ("_SRGN_IGNOREmark".data, fun _ => [(4, 6)])]⟩) "x".data
      = subtract
          (runQuery ⟨[("cap".data, fun _ => [(0, 5), (3, 9)]),
            ("_SRGN_IGNOREmark".data, fun _ => [(4, 6)])]⟩ "x".data)
          (runQuery ⟨(⟨[("cap".data, fun _ => [(0, 5), (3, 9)]),
              ("_SRGN_IGNOREmark".data, fun _ => [(4, 6)])]⟩ : TSQuery).captures.filter
                fun cap => isIgnored cap.1⟩ "x".data) :=
  (scope_via_query_negation _ _).1 (by rfl)

/-- Witness for C3's amended statement at the characters `' '` and `'$'`. -/
theorem fallback_to_neutral_witness :
    step .maybeVariableStart ' ' 5 = .ok (.noop, none) ∧
      step (.windUpBraces 2) ' ' 5 = .ok (.noop, none) ∧
      step (.windUpBraces 2) '$' 5 = .ok (.maybeVariableStart, none) :=
  ⟨((fallback_to_neutral ' ' 5 2).1 (by decide) (by decide) (by decide)).1,
    ((fallback_to_neutral ' ' 5 2).1 (by decide) (by decide) (by decide)).2
      (by decide),
    (fallback_to_neutral ' ' 5 2).2.2⟩

end Srgn
